import Mathlib

/-!
Verification of the recursive dice roller (`src/eval.rs`, `src/parse.rs`,
`src/tokenize.rs`) against its natural-language specification.

The Rust code is shallowly embedded: `i32` values become `Int` (no claim
here depends on 32-bit overflow), the `Rc<RefCell<VecDeque<Exp>>>` operand
sequences become plain `List Exp` (each shared handle has a single live
owner on the builder stack, so in-place extension is modelled by building
the extended list), the randomness source (`rand::Rng` / the repository's
`MockRng`) becomes a `List Nat` of pending `next_u32` outputs where an
exhausted source keeps yielding `0`, and Rust panics (`expect`,
`unreachable!`) become `Option`/`Except` failures.
-/

set_option maxRecDepth 10000

/-- Rust `eval.rs Operation`: the three n-ary arithmetic operators. -/
inductive Operation where
  | add : Operation
  | sub : Operation
  | mul : Operation
deriving DecidableEq, Repr

mutual

/-- Rust `eval.rs Exp`: parsed-but-not-evaluated expressions.  The Rust
`Op { operation, arguments }` payload is inlined as an operator together
with its operand list. -/
inductive Exp where
  | const : Int → Exp
  | roll : Roll → Exp
  | op : Operation → List Exp → Exp

/-- Rust `eval.rs Roll`: dice count, side count, and keep rule, each possibly a
further expression. -/
inductive Roll where
  | mk : Exp → Exp → Keep → Roll

/-- Rust `eval.rs Keep`: which rolled dice are kept. -/
inductive Keep where
  | lowest : Exp → Keep
  | highest : Exp → Keep
  | all : Keep

end

/-- Field accessor for `Roll.dice`. -/
def Roll.dice : Roll → Exp
  | .mk d _ _ => d

/-- Field accessor for `Roll.sides`. -/
def Roll.sides : Roll → Exp
  | .mk _ s _ => s

/-- Field accessor for `Roll.keep`. -/
def Roll.keep : Roll → Keep
  | .mk _ _ k => k

mutual

/-- Rust `eval.rs Value`: the evaluated form, structurally parallel to `Exp`. -/
inductive Value where
  | const : Int → Value
  | rolled : Rolled → Value
  | op : Operation → List Value → Value

/-- Rust `eval.rs Rolled`: evaluated dice count, side count and kept outcome. -/
inductive Rolled where
  | mk : Value → Value → Kept → Rolled

/-- Rust `eval.rs Kept`: the keep rule actually applied, the evaluated
requested-retain count, and the two partitions of the sorted rolls. -/
inductive Kept where
  | mk : KeptRule → Value → List Int → List Int → Kept

/-- Rust `eval.rs KeptRule`: the keep rule recorded on the evaluated result,
carrying the clamped retain count as a `Value`. -/
inductive KeptRule where
  | all : KeptRule
  | lowest : Value → KeptRule
  | highest : Value → KeptRule

end

/-- Field accessor for `Rolled.dice`. -/
def Rolled.dice : Rolled → Value
  | .mk d _ _ => d

/-- Field accessor for `Rolled.sides`. -/
def Rolled.sides : Rolled → Value
  | .mk _ s _ => s

/-- Field accessor for `Rolled.kept`. -/
def Rolled.kept : Rolled → Kept
  | .mk _ _ k => k

/-- Field accessor for `Kept.keep`. -/
def Kept.keep : Kept → KeptRule
  | .mk k _ _ _ => k

/-- Field accessor for `Kept.retained`. -/
def Kept.retained : Kept → Value
  | .mk _ r _ _ => r

/-- Field accessor for `Kept.lowest`. -/
def Kept.lowest : Kept → List Int
  | .mk _ _ lo _ => lo

/-- Field accessor for `Kept.highest`. -/
def Kept.highest : Kept → List Int
  | .mk _ _ _ hi => hi

/-- Rust `Kept::val` in `eval.rs`: sum the partition the rule designates as
kept (`lowest` for keep-lowest, `highest` otherwise). -/
def Kept.val (k : Kept) : Int :=
  match k.keep with
  | .lowest _ => k.lowest.sum
  | _ => k.highest.sum

/-- Rust `Rolled::val` in `eval.rs`. -/
def Rolled.val (r : Rolled) : Int :=
  r.kept.val

mutual

/-- Rust `Value::value` in `eval.rs`: collapse a value tree to one integer.
The `expect` panic on an empty `Sub` operand list is modelled as `none`. -/
def Value.value : Value → Option Int
  | .const v => some v
  | .rolled r => some r.val
  | .op o vals =>
      match valueList vals with
      | none => none
      | some ints =>
          match o with
          | .add => some ints.sum
          | .mul => some ints.prod
          | .sub =>
              match ints with
              | [] => none
              | x :: rest => some (rest.foldl (fun acc v => acc - v) x)

/-- Collapse each value of an operand list in order, propagating the
panic of any sub-value. -/
def valueList : List Value → Option (List Int)
  | [] => some []
  | v :: vs =>
      match v.value with
      | none => none
      | some n =>
          match valueList vs with
          | none => none
          | some ns => some (n :: ns)

end

/-- The ascending sort applied to rolled dice (`rolled.sort_unstable()` in
`Roll::val`); insertion sort produces the same ascending ordering. -/
def sortInts (l : List Int) : List Int :=
  List.insertionSort (fun a b => a ≤ b) l

/-- The dice-drawing loop of `Roll::val`: draw `n` values from a die with
`sides` faces.  A zero-sided die yields `0` without consuming randomness;
otherwise `next_u32() % sides` is drawn and a zero residue wraps to
`sides` because dice are 1-indexed. -/
def rollDice (sides : Nat) : Nat → List Nat → List Int × List Nat
  | 0, rng => ([], rng)
  | n + 1, rng =>
      if sides = 0 then
        let rest := rollDice sides n rng
        (0 :: rest.1, rest.2)
      else
        let draw := rng.headD 0
        let r := draw % sides
        let result := if r = 0 then sides else r
        let rest := rollDice sides n rng.tail
        ((result : Int) :: rest.1, rest.2)

mutual

/-- Rust `Exp::evaluate` in `eval.rs`, with the randomness source threaded
explicitly and panics surfaced as `none`. -/
def Exp.evaluate : Exp → List Nat → Option (Value × List Nat)
  | .const v, rng => some (.const v, rng)
  | .roll r, rng =>
      match Roll.val r rng with
      | some (rolled, rng') => some (.rolled rolled, rng')
      | none => none
  | .op o args, rng =>
      match evalList args rng with
      | some (vals, rng') => some (.op o vals, rng')
      | none => none

/-- Rust `Op::value` in `eval.rs`: evaluate each operand left to right. -/
def evalList : List Exp → List Nat → Option (List Value × List Nat)
  | [], rng => some ([], rng)
  | e :: es, rng =>
      match Exp.evaluate e rng with
      | some (v, rng') =>
          match evalList es rng' with
          | some (vs, rng'') => some (v :: vs, rng'')
          | none => none
      | none => none

/-- Rust `Roll::val` in `eval.rs`: evaluate sides, then dice, roll
`max(dice, 0)` dice with `|sides|` faces, sort ascending, and apply the
keep rule. -/
def Roll.val : Roll → List Nat → Option (Rolled × List Nat)
  | .mk dice sides keep, rng =>
      match Exp.evaluate sides rng with
      | none => none
      | some (sidesV, rng1) =>
          match sidesV.value with
          | none => none
          | some sv =>
              match Exp.evaluate dice rng1 with
              | none => none
              | some (diceV, rng2) =>
                  match diceV.value with
                  | none => none
                  | some dv =>
                      let rolled := rollDice sv.natAbs (max dv 0).toNat rng2
                      match Keep.retain keep (sortInts rolled.1) rolled.2 with
                      | none => none
                      | some (kept, rng4) =>
                          some (.mk diceV sidesV kept, rng4)

/-- Rust `Keep::retain` in `eval.rs`: clamp the evaluated retain count to
`[0, elements.len()]` and split the sorted rolls at the corresponding
index; `All` keeps everything in the `highest` partition. -/
def Keep.retain : Keep → List Int → List Nat → Option (Kept × List Nat)
  | .all, elements, rng =>
      some (.mk .all (.const (elements.length : Int)) [] elements, rng)
  | .lowest exp, elements, rng =>
      match Exp.evaluate exp rng with
      | none => none
      | some (retained, rng') =>
          match retained.value with
          | none => none
          | some rv =>
              let n := min (max rv 0).toNat elements.length
              some (.mk (.lowest (.const (n : Int))) retained
                (elements.take n) (elements.drop n), rng')
  | .highest exp, elements, rng =>
      match Exp.evaluate exp rng with
      | none => none
      | some (retained, rng') =>
          match retained.value with
          | none => none
          | some rv =>
              let n := min (max rv 0).toNat elements.length
              let index := elements.length - n
              some (.mk (.highest (.const (n : Int))) retained
                (elements.take index) (elements.drop index), rng')

end

/-- The error message produced when the character stream ends before a
token is complete. -/
def streamEndMsg : String :=
  "Character stream completed before token was fully assembled"

/-- Render a character between single quotes, as Rust string formatting
does inside the unexpected-symbol message. -/
def quoted (c : Char) : String :=
  String.singleton '\x27' ++ String.singleton c ++ String.singleton '\x27'

/-- The error message produced for an unrecognized character. -/
def unexpectedSymbolMsg (c : Char) : String :=
  "Encountered unexpected symbol " ++ quoted c ++ " while tokenizing input"

/-- Rust `Token::parse_number` digit accumulation (shared by both lexers): the
digit buffer is reversed, each digit is scaled by its positional power of
ten, and the terms are summed. -/
def digitsVal (ds : List Char) : Int :=
  (((ds.reverse.map (fun c => ((c.toNat - Char.toNat (Char.ofNat 48) : Nat) : Int))).enum).map
    (fun p => p.2 * 10 ^ p.1)).sum

/-- Rust `parse.rs Token`: the token alphabet of the tokenizer that the public
`parse` function actually uses (digits, arithmetic operators, parentheses;
no dice or keep markers). -/
inductive Token where
  | number : Int → Token
  | plus : Token
  | minus : Token
  | times : Token
  | openParen : Token
  | closeParen : Token
  | expression : Exp → Token
  | endOfStream : Token

/-- Rust `Token::next` in `parse.rs`: skip whitespace and produce the next
token, or fail on an unrecognized symbol or an exhausted stream. -/
def Token.next : List Char → Except String (Token × List Char)
  | [] => .error streamEndMsg
  | c :: rest =>
      if c.isWhitespace then Token.next rest
      else if c = '(' then .ok (Token.openParen, rest)
      else if c = ')' then .ok (Token.closeParen, rest)
      else if c.isDigit then
        .ok (Token.number (digitsVal ((c :: rest).takeWhile Char.isDigit)),
          (c :: rest).dropWhile Char.isDigit)
      else if c = '-' then
        if (rest.head?.map Char.isDigit).getD false then
          .ok (Token.number (-1 * digitsVal (rest.takeWhile Char.isDigit)),
            rest.dropWhile Char.isDigit)
        else .ok (Token.minus, rest)
      else if c = '+' then .ok (Token.plus, rest)
      else if c = '*' then .ok (Token.times, rest)
      else .error (unexpectedSymbolMsg c)

/-- Rust `Token::tokenize` in `parse.rs`: call `Token::next` until the input
is exhausted, then append `EndOfStream`.  Each successful `Token::next`
consumes at least one character, so a fuel of the remaining length always
suffices; the fuel-exhausted branch is unreachable from `parse`. -/
def tokenizeGo : Nat → List Char → Except String (List Token)
  | _, [] => .ok [Token.endOfStream]
  | 0, _ :: _ => .error streamEndMsg
  | fuel + 1, c :: cs =>
      match Token.next (c :: cs) with
      | .error msg => .error msg
      | .ok (t, rest) =>
          match tokenizeGo fuel rest with
          | .error msg => .error msg
          | .ok ts => .ok (t :: ts)

/-- Rust `Token::tokenize` entry point. -/
def tokenize (cs : List Char) : Except String (List Token) :=
  tokenizeGo cs.length cs

/-- Rust `parse.rs ExpBuilder`: the shift-reduce state, a stack of shifted
tokens plus one token of lookahead. -/
structure ExpBuilder where
  lookahead : Option Token
  tokens : List Token

/-- Rust `ExpBuilder::reduced` in `parse.rs`, restricted to the matched stack
suffix: the reduction rule table, tried in source order.  Only the
generic binary `Add`/`Sub` rules consult the lookahead; the repeated-
operator merge rules do not. -/
def reducedSuffix (la : Option Token) : List Token → Option Exp
  | [Token.number n] => some (Exp.const n)
  | [Token.openParen, Token.expression e, Token.closeParen] => some e
  | [Token.expression (Exp.op Operation.add augends), Token.plus, Token.expression addend] =>
      some (Exp.op Operation.add (augends ++ [addend]))
  | [Token.expression augend, Token.plus, Token.expression (Exp.op Operation.add addends)] =>
      some (Exp.op Operation.add (augend :: addends))
  | [Token.expression a, Token.plus, Token.expression b] =>
      match la with
      | some Token.times => none
      | _ => some (Exp.op Operation.add [a, b])
  | [Token.expression (Exp.op Operation.sub subtrahends), Token.minus, Token.expression minuend] =>
      some (Exp.op Operation.sub (subtrahends ++ [minuend]))
  | [Token.expression subtrahend, Token.minus, Token.expression (Exp.op Operation.add minuend)] =>
      some (Exp.op Operation.sub (subtrahend :: minuend))
  | [Token.expression a, Token.minus, Token.expression b] =>
      match la with
      | some Token.times => none
      | _ => some (Exp.op Operation.sub [a, b])
  | [Token.expression a, Token.times, Token.expression b] =>
      some (Exp.op Operation.mul [a, b])
  | _ => none

/-- The split-point scan of `ExpBuilder::reduce`: try split points
`i - 1, i - 2, …, 0`; on the first suffix that reduces, replace it by the
resulting expression token. -/
def reduceFind (la : Option Token) (tokens : List Token) : Nat → Option (List Token)
  | 0 => none
  | i + 1 =>
      match reducedSuffix la (tokens.drop i) with
      | some e => some (tokens.take i ++ [Token.expression e])
      | none => reduceFind la tokens i

/-- One call of `ExpBuilder::reduce`: scan all split points from the end
of the stack. -/
def reduceOnce (la : Option Token) (tokens : List Token) : Option (List Token) :=
  reduceFind la tokens tokens.length

/-- The `while exp_builder.reduce() {}` loop of `parse`: reduce until no
rule fires.  Every reduction either shortens the stack or converts a
number into an expression, so `3 * length + 1` fuel always reaches the
fixpoint (`reduceLoop_fixpoint` below). -/
def reduceLoop (la : Option Token) : Nat → List Token → List Token
  | 0, tokens => tokens
  | fuel + 1, tokens =>
      match reduceOnce la tokens with
      | some tokens' => reduceLoop la fuel tokens'
      | none => tokens

/-- Rust `ExpBuilder::push` in `parse.rs`: shift the held lookahead onto the
stack and hold the incoming token instead. -/
def ExpBuilder.push : ExpBuilder → Token → ExpBuilder
  | ⟨some l, ts⟩, t => ⟨some t, ts ++ [l]⟩
  | ⟨none, ts⟩, t => ⟨some t, ts⟩

/-- One iteration of the `parse` loop body: push a token, then reduce to
fixpoint. -/
def ExpBuilder.step (b : ExpBuilder) (t : Token) : ExpBuilder :=
  let b' := b.push t
  ⟨b'.lookahead, reduceLoop b'.lookahead (3 * b'.tokens.length + 1) b'.tokens⟩

/-- Rust `ExpBuilder::build` in `parse.rs`: succeed only when exactly one
expression token remains on the stack. -/
def ExpBuilder.build : ExpBuilder → Except String Exp
  | ⟨_, [Token.expression e]⟩ => .ok e
  | ⟨_, [_]⟩ => .error "Final item was not a token"
  | _ => .error "tokenized expression could not be parsed"

/-- Rust `parse` in `parse.rs`: tokenize, feed each token through the builder,
then build. -/
def parse (input : String) : Except String Exp :=
  match tokenize input.toList with
  | .error msg => .error msg
  | .ok toks => (toks.foldl ExpBuilder.step ⟨none, []⟩).build

namespace Tokenize

/-- Rust `tokenize.rs Token`: the dice-aware token alphabet (this lexer is not
the one the public `parse` function uses). -/
inductive Token where
  | number : Int → Token
  | operation : Operation → Token
  | die : Token
  | keepHighest : Token
  | keepLowest : Token
  | openParen : Token
  | closeParen : Token
  | expression : Exp → Token
  | endOfStream : Token

/-- Rust `Token::precedence` in `tokenize.rs`. -/
def Token.precedence : Token → Nat
  | .operation .add => 1
  | .operation .sub => 1
  | .operation .mul => 2
  | .die => 10
  | .keepHighest => 20
  | .keepLowest => 20
  | _ => 0

/-- Rust `Tokenizer::parse_number` in `tokenize.rs`: the first digit is already
consumed and handed over separately. -/
def parseNumber (first : Char) (remaining : List Char) : Int × List Char :=
  (digitsVal (first :: remaining.takeWhile Char.isDigit),
    remaining.dropWhile Char.isDigit)

/-- Rust `Tokenizer::next_token` in `tokenize.rs`: the dice-aware lexer.  The
letter `d` is always the die operator; `k` peeks one character: a digit or
`(` leaves it unconsumed and yields keep-highest, `h` yields keep-highest,
`l` yields keep-lowest, any other character is a lexical error, and an
exhausted stream is the distinct mid-token error. -/
def nextToken : List Char → Except String (Token × List Char)
  | [] => .error streamEndMsg
  | c :: rest =>
      if c.isWhitespace then nextToken rest
      else if c = '(' then .ok (Token.openParen, rest)
      else if c = ')' then .ok (Token.closeParen, rest)
      else if c.isDigit then
        let r := parseNumber c rest
        .ok (Token.number r.1, r.2)
      else if c = '-' then
        match rest with
        | d :: rest2 =>
            if d.isDigit then
              let r := parseNumber d rest2
              .ok (Token.number (-1 * r.1), r.2)
            else .ok (Token.operation Operation.sub, rest)
        | [] => .ok (Token.operation Operation.sub, rest)
      else if c = '+' then .ok (Token.operation Operation.add, rest)
      else if c = '*' then .ok (Token.operation Operation.mul, rest)
      else if c = 'd' then .ok (Token.die, rest)
      else if c = 'k' then
        match rest with
        | [] => .error streamEndMsg
        | c2 :: rest2 =>
            if c2.isDigit || c2 = '(' then .ok (Token.keepHighest, rest)
            else if c2 = 'h' then .ok (Token.keepHighest, rest2)
            else if c2 = 'l' then .ok (Token.keepLowest, rest2)
            else .error (unexpectedSymbolMsg c2)
      else .error (unexpectedSymbolMsg c)

end Tokenize

/-- C8: `parse "1 + 2 + 3"` returns a single flattened `Add` node whose
operand list is exactly `[Const 1, Const 2, Const 3]` (a 3-element list,
not nested binary additions), and evaluating it yields the numeric
value `6`. -/
theorem parse_multi_add_flattened :
    parse "1 + 2 + 3" =
      Except.ok (Exp.op Operation.add [Exp.const 1, Exp.const 2, Exp.const 3]) ∧
    (Exp.op Operation.add [Exp.const 1, Exp.const 2, Exp.const 3]).evaluate [] =
      some (Value.op Operation.add [Value.const 1, Value.const 2, Value.const 3], []) ∧
    (Value.op Operation.add [Value.const 1, Value.const 2, Value.const 3]).value = some 6 :=
  ⟨rfl, rfl, rfl⟩

/-- C9: `parse ""` and `parse "2 +"` fail with the parse error (the token
stream does not reduce to exactly one expression), and `parse "2 $ 3"`
fails with the lex error whose message references the character `$`;
no partial result is returned in any of the three cases. -/
theorem parse_error_paths :
    parse "" = Except.error "tokenized expression could not be parsed" ∧
    parse "2 +" = Except.error "tokenized expression could not be parsed" ∧
    parse "2 $ 3" = Except.error (unexpectedSymbolMsg '$') ∧
    (unexpectedSymbolMsg '$').toList.contains '$' = true :=
  ⟨rfl, rfl, rfl, by decide⟩

/-- C1 (code bug): the spec promises `parse "1d6"` succeeds and, with the
fixed randomness sequence `[3]`, evaluates to a `Rolled` whose kept
partition is `[3]` with numeric value `3`.  The evaluator half is indeed
what `Roll::val` produces for `1d6`, but the public `parse` rejects the
input: it uses the arithmetic-only tokenizer of `parse.rs`, which treats
`d` as an unrecognized symbol. -/
theorem parse_1d6_rejected_but_eval_correct :
    parse "1d6" = Except.error (unexpectedSymbolMsg 'd') ∧
    (Exp.roll (Roll.mk (Exp.const 1) (Exp.const 6) Keep.all)).evaluate [3] =
      some (Value.rolled (Rolled.mk (Value.const 1) (Value.const 6)
        (Kept.mk KeptRule.all (Value.const 1) [] [3])), []) ∧
    (Value.rolled (Rolled.mk (Value.const 1) (Value.const 6)
        (Kept.mk KeptRule.all (Value.const 1) [] [3]))).value = some 3 :=
  ⟨rfl, rfl, rfl⟩

/-- C3 (code bug): the claim requires that no `Add`/`Sub` reduction fires
while the lookahead is `Times`, so that `"1 + 2 + 3 * 4"` evaluates to
`15`.  The repeated-operator merge rules of `ExpBuilder::reduced` do not
consult the lookahead, so the flattened `Add` absorbs the `3` while `*`
is the lookahead and the input parses as `(1 + 2 + 3) * 4`, which
evaluates to `24`, not `15`. -/
theorem parse_flattened_add_ignores_times_lookahead :
    parse "1 + 2 + 3 * 4" =
      Except.ok (Exp.op Operation.mul
        [Exp.op Operation.add [Exp.const 1, Exp.const 2, Exp.const 3], Exp.const 4]) ∧
    (Exp.op Operation.mul
        [Exp.op Operation.add [Exp.const 1, Exp.const 2, Exp.const 3], Exp.const 4]).evaluate [] =
      some (Value.op Operation.mul
        [Value.op Operation.add [Value.const 1, Value.const 2, Value.const 3], Value.const 4], []) ∧
    (Value.op Operation.mul
        [Value.op Operation.add [Value.const 1, Value.const 2, Value.const 3],
          Value.const 4]).value = some 24 ∧
    (Value.op Operation.mul
        [Value.op Operation.add [Value.const 1, Value.const 2, Value.const 3],
          Value.const 4]).value ≠ some 15 :=
  ⟨rfl, rfl, rfl, by decide⟩

theorem retain_partition_append (k : Keep) (elements : List Int) (rng : List Nat)
    (kept : Kept) (rng' : List Nat)
    (h : Keep.retain k elements rng = some (kept, rng')) :
    kept.lowest ++ kept.highest = elements := by
  cases k with
  | all =>
      simp only [Keep.retain, Option.some.injEq, Prod.mk.injEq] at h
      obtain ⟨hk, -⟩ := h
      subst hk
      simp [Kept.lowest, Kept.highest]
  | lowest exp =>
      simp only [Keep.retain] at h
      split at h
      · exact absurd h (by simp)
      · split at h
        · exact absurd h (by simp)
        · simp only [Option.some.injEq, Prod.mk.injEq] at h
          obtain ⟨hk, -⟩ := h
          subst hk
          simp [Kept.lowest, Kept.highest]
  | highest exp =>
      simp only [Keep.retain] at h
      split at h
      · exact absurd h (by simp)
      · split at h
        · exact absurd h (by simp)
        · simp only [Option.some.injEq, Prod.mk.injEq] at h
          obtain ⟨hk, -⟩ := h
          subst hk
          simp [Kept.lowest, Kept.highest]

/-- C6: for every evaluated roll, any evaluated dice count `d` (the
length of the sorted roll list handed to `Keep::retain`) and any
requested keep count (any integer, including negative or larger than
`d`), the retained count after clamping satisfies `0 ≤ retained ≤ d`
and the two partitions satisfy `lowest.length + highest.length = d`;
this holds for the `All`, `Highest`, and `Lowest` keep rules alike. -/
theorem retain_clamp_invariant (k : Keep) (elements : List Int) (rng : List Nat)
    (kept : Kept) (rng' : List Nat)
    (h : Keep.retain k elements rng = some (kept, rng')) :
    kept.lowest.length + kept.highest.length = elements.length ∧
    ∃ n : Nat, n ≤ elements.length ∧
      ((kept.keep = KeptRule.all ∧ n = elements.length ∧
          kept.retained = Value.const (elements.length : Int)) ∨
        kept.keep = KeptRule.lowest (Value.const (n : Int)) ∨
        kept.keep = KeptRule.highest (Value.const (n : Int))) := by
  have hlen : kept.lowest.length + kept.highest.length = elements.length := by
    have := retain_partition_append k elements rng kept rng' h
    calc kept.lowest.length + kept.highest.length
        = (kept.lowest ++ kept.highest).length := (List.length_append _ _).symm
      _ = elements.length := by rw [this]
  refine ⟨hlen, ?_⟩
  cases k with
  | all =>
      simp only [Keep.retain, Option.some.injEq, Prod.mk.injEq] at h
      obtain ⟨hk, -⟩ := h
      subst hk
      exact ⟨elements.length, le_refl _, Or.inl ⟨rfl, rfl, rfl⟩⟩
  | lowest exp =>
      simp only [Keep.retain] at h
      split at h
      · exact absurd h (by simp)
      · split at h
        · exact absurd h (by simp)
        · simp only [Option.some.injEq, Prod.mk.injEq] at h
          obtain ⟨hk, -⟩ := h
          subst hk
          exact ⟨_, min_le_right _ _, Or.inr (Or.inl rfl)⟩
  | highest exp =>
      simp only [Keep.retain] at h
      split at h
      · exact absurd h (by simp)
      · split at h
        · exact absurd h (by simp)
        · simp only [Option.some.injEq, Prod.mk.injEq] at h
          obtain ⟨hk, -⟩ := h
          subst hk
          exact ⟨_, min_le_right _ _, Or.inr (Or.inr rfl)⟩

/-- Witness for `retain_clamp_invariant`: keep-highest 5 of 3 rolled dice
clamps to retaining all 3. -/
theorem retain_clamp_invariant_witness :
    (Kept.mk (KeptRule.highest (Value.const 3)) (Value.const 5) [] [1, 2, 3]).lowest.length +
      (Kept.mk (KeptRule.highest (Value.const 3)) (Value.const 5) [] [1, 2, 3]).highest.length =
      ([1, 2, 3] : List Int).length ∧
    ∃ n : Nat, n ≤ ([1, 2, 3] : List Int).length ∧
      (((Kept.mk (KeptRule.highest (Value.const 3)) (Value.const 5) [] [1, 2, 3]).keep = KeptRule.all ∧
          n = ([1, 2, 3] : List Int).length ∧
          (Kept.mk (KeptRule.highest (Value.const 3)) (Value.const 5) [] [1, 2, 3]).retained =
            Value.const (([1, 2, 3] : List Int).length : Int)) ∨
        (Kept.mk (KeptRule.highest (Value.const 3)) (Value.const 5) [] [1, 2, 3]).keep =
          KeptRule.lowest (Value.const (n : Int)) ∨
        (Kept.mk (KeptRule.highest (Value.const 3)) (Value.const 5) [] [1, 2, 3]).keep =
          KeptRule.highest (Value.const (n : Int))) :=
  retain_clamp_invariant (Keep.highest (Exp.const 5)) [1, 2, 3] []
    (Kept.mk (KeptRule.highest (Value.const 3)) (Value.const 5) [] [1, 2, 3]) [] rfl

theorem rollDice_zero_sides (n : Nat) (rng : List Nat) :
    rollDice 0 n rng = (List.replicate n 0, rng) := by
  induction n with
  | zero => rfl
  | succ n ih => simp [rollDice, ih, List.replicate_succ]

theorem sortInts_replicate (n : Nat) :
    sortInts (List.replicate n (0 : Int)) = List.replicate n 0 := by
  have hp : List.Perm (sortInts (List.replicate n (0 : Int))) (List.replicate n 0) :=
    List.perm_insertionSort _ _
  refine (List.eq_replicate_iff.mpr ⟨?_, ?_⟩)
  · rw [hp.length_eq, List.length_replicate]
  · intro b hb
    exact List.eq_of_mem_replicate (hp.mem_iff.mp hb)

theorem Kept.val_of_append_replicate_zero (kept : Kept) (m : Nat)
    (h : kept.lowest ++ kept.highest = List.replicate m (0 : Int)) :
    kept.val = 0 := by
  have hlo : ∀ x ∈ kept.lowest, x = (0 : Int) := by
    intro x hx
    exact List.eq_of_mem_replicate (h ▸ List.mem_append_left kept.highest hx)
  have hhi : ∀ x ∈ kept.highest, x = (0 : Int) := by
    intro x hx
    exact List.eq_of_mem_replicate (h ▸ List.mem_append_right kept.lowest hx)
  unfold Kept.val
  split
  · exact List.sum_eq_zero hlo
  · exact List.sum_eq_zero hhi

/-- C7: for every dice count `n ≥ 0`, evaluating a roll whose side count
evaluates to `0` yields exactly `n` rolled zeros (the two partitions
concatenate to `n` zeros), and the roll's summed numeric value is `0`. -/
theorem roll_zero_sides_yields_zeros
    (dice sides : Exp) (keep : Keep) (rng rng1 rng2 rng' : List Nat)
    (sidesV diceV : Value) (kept : Kept) (n : Int)
    (hs : sides.evaluate rng = some (sidesV, rng1))
    (hsv : sidesV.value = some 0)
    (hd : dice.evaluate rng1 = some (diceV, rng2))
    (hdv : diceV.value = some n)
    (hn : 0 ≤ n)
    (hret : Keep.retain keep (List.replicate n.toNat 0) rng2 = some (kept, rng')) :
    Roll.val (Roll.mk dice sides keep) rng = some (Rolled.mk diceV sidesV kept, rng') ∧
    kept.lowest ++ kept.highest = List.replicate n.toNat 0 ∧
    (Rolled.mk diceV sidesV kept).val = 0 := by
  have hmax : max n 0 = n := max_eq_left hn
  have happ : kept.lowest ++ kept.highest = List.replicate n.toNat 0 :=
    retain_partition_append keep (List.replicate n.toNat 0) rng2 kept rng' hret
  refine ⟨?_, happ, ?_⟩
  · simp only [Roll.val, hs, hsv, hd, hdv, hmax, Int.natAbs_zero, rollDice_zero_sides,
      sortInts_replicate, hret]
  · show (Rolled.mk diceV sidesV kept).kept.val = 0
    exact Kept.val_of_append_replicate_zero kept n.toNat happ

/-- Witness for `roll_zero_sides_yields_zeros`: `3d0` with keep-all
yields three zeros and value `0`. -/
theorem roll_zero_sides_yields_zeros_witness :
    Roll.val (Roll.mk (Exp.const 3) (Exp.const 0) Keep.all) [] =
      some (Rolled.mk (Value.const 3) (Value.const 0)
        (Kept.mk KeptRule.all (Value.const 3) [] [0, 0, 0]), []) ∧
    (Kept.mk KeptRule.all (Value.const 3) [] [0, 0, 0]).lowest ++
      (Kept.mk KeptRule.all (Value.const 3) [] [0, 0, 0]).highest =
      List.replicate (3 : Int).toNat 0 ∧
    (Rolled.mk (Value.const 3) (Value.const 0)
      (Kept.mk KeptRule.all (Value.const 3) [] [0, 0, 0])).val = 0 :=
  roll_zero_sides_yields_zeros (Exp.const 3) (Exp.const 0) Keep.all [] [] [] []
    (Value.const 0) (Value.const 3) (Kept.mk KeptRule.all (Value.const 3) [] [0, 0, 0]) 3
    rfl rfl rfl rfl (by decide) rfl

/-- C4 counterexample: the claim says a *negative* evaluated side count
makes every rolled die yield `0`, but `Roll::val` takes the absolute
value of the side count (`unsigned_abs`), so `1d(-6)` with randomness
`[3]` rolls a `3`, not a `0`. -/
theorem roll_negative_sides_counterexample :
    (Exp.roll (Roll.mk (Exp.const 1) (Exp.const (-6)) Keep.all)).evaluate [3] =
      some (Value.rolled (Rolled.mk (Value.const 1) (Value.const (-6))
        (Kept.mk KeptRule.all (Value.const 1) [] [3])), []) ∧
    (Kept.mk KeptRule.all (Value.const 1) [] [3]).lowest ++
      (Kept.mk KeptRule.all (Value.const 1) [] [3]).highest ≠ [0] ∧
    (Rolled.mk (Value.const 1) (Value.const (-6))
      (Kept.mk KeptRule.all (Value.const 1) [] [3])).val ≠ 0 :=
  ⟨rfl, by decide, by decide⟩

/-- C4 (amended): for every roll whose side-count sub-expression
evaluates to exactly `0`, every rolled die yields `0` (no error is
raised); and for every roll whose dice-count sub-expression evaluates to
a negative integer, zero dice are rolled.  (A negative side count instead
behaves as its absolute value, per the counterexample above.) -/
theorem roll_degenerate_geometry
    (dice sides : Exp) (keep : Keep) (rng rng1 rng2 rng' : List Nat)
    (sidesV diceV : Value) (kept : Kept) (sv dv : Int)
    (hs : sides.evaluate rng = some (sidesV, rng1))
    (hsv : sidesV.value = some sv)
    (hd : dice.evaluate rng1 = some (diceV, rng2))
    (hdv : diceV.value = some dv)
    (hret : Keep.retain keep
      (sortInts (rollDice sv.natAbs (max dv 0).toNat rng2).1)
      (rollDice sv.natAbs (max dv 0).toNat rng2).2 = some (kept, rng')) :
    Roll.val (Roll.mk dice sides keep) rng = some (Rolled.mk diceV sidesV kept, rng') ∧
    (sv = 0 → kept.lowest ++ kept.highest = List.replicate (max dv 0).toNat 0) ∧
    (dv < 0 → kept.lowest = [] ∧ kept.highest = []) := by
  refine ⟨?_, ?_, ?_⟩
  · simp only [Roll.val, hs, hsv, hd, hdv, hret]
  · intro hz
    subst hz
    rw [Int.natAbs_zero, rollDice_zero_sides] at hret
    have happ := retain_partition_append _ _ _ _ _ hret
    rwa [sortInts_replicate] at happ
  · intro hneg
    have hmax : max dv 0 = 0 := max_eq_right (le_of_lt hneg)
    rw [hmax] at hret
    have happ := retain_partition_append _ _ _ _ _ hret
    have : kept.lowest ++ kept.highest = [] := by
      simpa [rollDice, sortInts, List.insertionSort] using happ
    exact List.append_eq_nil.mp this

/-- Witness for `roll_degenerate_geometry`: `(-2)d0` rolls no dice. -/
theorem roll_degenerate_geometry_witness :
    Roll.val (Roll.mk (Exp.const (-2)) (Exp.const 0) Keep.all) [] =
      some (Rolled.mk (Value.const (-2)) (Value.const 0)
        (Kept.mk KeptRule.all (Value.const 0) [] []), []) ∧
    ((0 : Int) = 0 →
      (Kept.mk KeptRule.all (Value.const 0) [] []).lowest ++
        (Kept.mk KeptRule.all (Value.const 0) [] []).highest =
        List.replicate (max (-2 : Int) 0).toNat 0) ∧
    ((-2 : Int) < 0 →
      (Kept.mk KeptRule.all (Value.const 0) [] []).lowest = [] ∧
      (Kept.mk KeptRule.all (Value.const 0) [] []).highest = []) :=
  roll_degenerate_geometry (Exp.const (-2)) (Exp.const 0) Keep.all [] [] [] []
    (Value.const 0) (Value.const (-2)) (Kept.mk KeptRule.all (Value.const 0) [] [])
    0 (-2) rfl rfl rfl rfl rfl

/-- C10: in the dice-aware lexer (`Tokenizer` in `tokenize.rs`), `k`
followed by a digit or `(` produces `KeepHighest` (leaving the peeked
character unconsumed), `kh` produces `KeepHighest`, `kl` produces
`KeepLowest`, `k` followed by any other character is the unexpected-symbol
lexical error, and a `k` at the end of the input fails with the distinct
mid-token error. -/
theorem nextToken_keep_rules (rest : List Char) :
    (∀ c2 rest2, rest = c2 :: rest2 →
      ((c2.isDigit = true ∨ c2 = '(') →
        Tokenize.nextToken ('k' :: rest) = .ok (Tokenize.Token.keepHighest, rest)) ∧
      (c2 = 'h' → Tokenize.nextToken ('k' :: rest) = .ok (Tokenize.Token.keepHighest, rest2)) ∧
      (c2 = 'l' → Tokenize.nextToken ('k' :: rest) = .ok (Tokenize.Token.keepLowest, rest2)) ∧
      (c2.isDigit = false → c2 ≠ '(' → c2 ≠ 'h' → c2 ≠ 'l' →
        Tokenize.nextToken ('k' :: rest) = .error (unexpectedSymbolMsg c2))) ∧
    (rest = [] → Tokenize.nextToken ['k'] = .error streamEndMsg) := by
  constructor
  · intro c2 rest2 hrest
    subst hrest
    refine ⟨?_, ?_, ?_, ?_⟩
    · intro h
      simp only [Tokenize.nextToken]
      simp [h]
    · intro h
      subst h
      rfl
    · intro h
      subst h
      rfl
    · intro h1 h2 h3 h4
      simp only [Tokenize.nextToken]
      simp [h1, h2, h3, h4]
  · intro h
    subst h
    rfl

/-- Witness for `nextToken_keep_rules`: `kh` lexes to `KeepHighest`,
`k2` leaves the digit unconsumed, and a dangling `k` is the mid-token
error. -/
theorem nextToken_keep_rules_witness :
    Tokenize.nextToken ['k', 'h'] = .ok (Tokenize.Token.keepHighest, []) ∧
    Tokenize.nextToken ['k', '2'] = .ok (Tokenize.Token.keepHighest, ['2']) ∧
    Tokenize.nextToken ['k'] = .error streamEndMsg :=
  ⟨((nextToken_keep_rules ['h']).1 'h' [] rfl).2.1 rfl,
    ((nextToken_keep_rules ['2']).1 '2' [] rfl).1 (Or.inl rfl),
    (nextToken_keep_rules []).2 rfl⟩


theorem mem_dropWhile_of_mem (p : Char → Bool) (l : List Char) (a : Char)
    (ha : a ∈ l) (hpa : p a = false) : a ∈ l.dropWhile p := by
  induction l with
  | nil => cases ha
  | cons x xs ih =>
      by_cases hx : p x
      · rw [List.dropWhile_cons_of_pos hx]
        cases ha with
        | head => rw [hx] at hpa; cases hpa
        | tail _ h => exact ih h
      · rw [List.dropWhile_cons_of_neg hx]
        exact ha

/-- A character that the arithmetic-only tokenizer never consumes (not
whitespace, not a digit, not one of its seven recognized symbols)
survives every successful `Token::next` call. -/
theorem next_preserves_char (x : Char)
    (hw : x.isWhitespace = false) (hd : x.isDigit = false)
    (h1 : x ≠ '(') (h2 : x ≠ ')') (h3 : x ≠ '-') (h4 : x ≠ '+') (h5 : x ≠ '*') :
    ∀ (cs : List Char) (t : Token) (rest : List Char),
      Token.next cs = .ok (t, rest) → x ∈ cs → x ∈ rest := by
  intro cs
  induction cs with
  | nil => intro t rest hnext; cases hnext
  | cons c cs' ih =>
      intro t rest hnext hmem
      have hsplit : x = c ∨ x ∈ cs' := by
        cases hmem with
        | head => exact Or.inl rfl
        | tail _ h => exact Or.inr h
      simp only [Token.next] at hnext
      by_cases hcw : c.isWhitespace
      · rw [if_pos hcw] at hnext
        have hx : x ∈ cs' := hsplit.resolve_left (fun he => by
          rw [he, hcw] at hw; cases hw)
        exact ih t rest hnext hx
      · rw [if_neg hcw] at hnext
        by_cases hc1 : c = '('
        · rw [if_pos hc1] at hnext
          cases hnext
          exact hsplit.resolve_left (fun he => h1 (he.trans hc1))
        · rw [if_neg hc1] at hnext
          by_cases hc2 : c = ')'
          · rw [if_pos hc2] at hnext
            cases hnext
            exact hsplit.resolve_left (fun he => h2 (he.trans hc2))
          · rw [if_neg hc2] at hnext
            by_cases hc3 : c.isDigit
            · rw [if_pos hc3] at hnext
              cases hnext
              exact mem_dropWhile_of_mem _ _ _ hmem hd
            · rw [if_neg hc3] at hnext
              by_cases hc4 : c = '-'
              · rw [if_pos hc4] at hnext
                by_cases hpd : (cs'.head?.map Char.isDigit).getD false
                · rw [if_pos hpd] at hnext
                  cases hnext
                  have hx : x ∈ cs' := hsplit.resolve_left (fun he => h3 (he.trans hc4))
                  exact mem_dropWhile_of_mem _ _ _ hx hd
                · rw [if_neg hpd] at hnext
                  cases hnext
                  exact hsplit.resolve_left (fun he => h3 (he.trans hc4))
              · rw [if_neg hc4] at hnext
                by_cases hc5 : c = '+'
                · rw [if_pos hc5] at hnext
                  cases hnext
                  exact hsplit.resolve_left (fun he => h4 (he.trans hc5))
                · rw [if_neg hc5] at hnext
                  by_cases hc6 : c = '*'
                  · rw [if_pos hc6] at hnext
                    cases hnext
                    exact hsplit.resolve_left (fun he => h5 (he.trans hc6))
                  · rw [if_neg hc6] at hnext
                    cases hnext

theorem next_shrinks :
    ∀ (cs : List Char) (t : Token) (rest : List Char),
      Token.next cs = .ok (t, rest) → rest.length < cs.length := by
  intro cs
  induction cs with
  | nil => intro t rest hnext; cases hnext
  | cons c cs' ih =>
      intro t rest hnext
      have hdw : ∀ l : List Char, (l.dropWhile Char.isDigit).length ≤ l.length :=
        fun l => (List.dropWhile_sublist Char.isDigit).length_le
      simp only [Token.next] at hnext
      by_cases hcw : c.isWhitespace
      · rw [if_pos hcw] at hnext
        exact Nat.lt_succ_of_lt (ih t rest hnext)
      · rw [if_neg hcw] at hnext
        by_cases hc1 : c = '('
        · rw [if_pos hc1] at hnext
          cases hnext
          exact Nat.lt_succ_self _
        · rw [if_neg hc1] at hnext
          by_cases hc2 : c = ')'
          · rw [if_pos hc2] at hnext
            cases hnext
            exact Nat.lt_succ_self _
          · rw [if_neg hc2] at hnext
            by_cases hc3 : c.isDigit
            · rw [if_pos hc3] at hnext
              cases hnext
              rw [List.dropWhile_cons_of_pos hc3]
              exact Nat.lt_succ_of_le (hdw cs')
            · rw [if_neg hc3] at hnext
              by_cases hc4 : c = '-'
              · rw [if_pos hc4] at hnext
                by_cases hpd : (cs'.head?.map Char.isDigit).getD false
                · rw [if_pos hpd] at hnext
                  cases hnext
                  exact Nat.lt_succ_of_le (hdw cs')
                · rw [if_neg hpd] at hnext
                  cases hnext
                  exact Nat.lt_succ_self _
              · rw [if_neg hc4] at hnext
                by_cases hc5 : c = '+'
                · rw [if_pos hc5] at hnext
                  cases hnext
                  exact Nat.lt_succ_self _
                · rw [if_neg hc5] at hnext
                  by_cases hc6 : c = '*'
                  · rw [if_pos hc6] at hnext
                    cases hnext
                    exact Nat.lt_succ_self _
                  · rw [if_neg hc6] at hnext
                    cases hnext

theorem tokenizeGo_error_of_mem (x : Char)
    (hw : x.isWhitespace = false) (hd : x.isDigit = false)
    (h1 : x ≠ '(') (h2 : x ≠ ')') (h3 : x ≠ '-') (h4 : x ≠ '+') (h5 : x ≠ '*') :
    ∀ (fuel : Nat) (cs : List Char), cs.length ≤ fuel → x ∈ cs →
      ∃ msg, tokenizeGo fuel cs = .error msg := by
  intro fuel
  induction fuel with
  | zero =>
      intro cs hlen hmem
      rw [List.length_eq_zero.mp (Nat.le_zero.mp hlen)] at hmem
      cases hmem
  | succ fuel ih =>
      intro cs hlen hmem
      cases cs with
      | nil => cases hmem
      | cons c cs' =>
          cases hnext : Token.next (c :: cs') with
          | error msg => exact ⟨msg, by simp [tokenizeGo, hnext]⟩
          | ok pair =>
              obtain ⟨t, rest⟩ := pair
              have hx : x ∈ rest :=
                next_preserves_char x hw hd h1 h2 h3 h4 h5 (c :: cs') t rest hnext hmem
              have hrl : rest.length ≤ fuel := by
                have := next_shrinks (c :: cs') t rest hnext
                simp only [List.length_cons] at this
                exact Nat.lt_succ_iff.mp (lt_of_lt_of_le this hlen)
              obtain ⟨msg, hmsg⟩ := ih rest hrl hx
              exact ⟨msg, by simp [tokenizeGo, hnext, hmsg]⟩

/-- C2: for every input string that contains the character `d` or the
character `k` anywhere, the public `parse` function returns an error:
the tokenizer `parse` actually uses recognizes only digits, `+`, `-`,
`*`, parentheses, and whitespace, so dice/keep notation is unreachable
through the public parsing entry point. -/
theorem parse_rejects_dice_chars (s : String)
    (h : 'd' ∈ s.toList ∨ 'k' ∈ s.toList) :
    ∃ msg, parse s = Except.error msg := by
  obtain ⟨x, hx, hxdk⟩ : ∃ x, x ∈ s.toList ∧ (x = 'd' ∨ x = 'k') := by
    rcases h with h | h
    · exact ⟨'d', h, Or.inl rfl⟩
    · exact ⟨'k', h, Or.inr rfl⟩
  have props : x.isWhitespace = false ∧ x.isDigit = false ∧
      x ≠ '(' ∧ x ≠ ')' ∧ x ≠ '-' ∧ x ≠ '+' ∧ x ≠ '*' := by
    rcases hxdk with rfl | rfl
    · exact ⟨rfl, rfl, by decide, by decide, by decide, by decide, by decide⟩
    · exact ⟨rfl, rfl, by decide, by decide, by decide, by decide, by decide⟩
  obtain ⟨hw, hd, h1, h2, h3, h4, h5⟩ := props
  obtain ⟨msg, hmsg⟩ := tokenizeGo_error_of_mem x hw hd h1 h2 h3 h4 h5
    s.toList.length s.toList (le_refl _) hx
  exact ⟨msg, by unfold parse tokenize; rw [hmsg]⟩

/-- Witness for `parse_rejects_dice_chars` at the input `"1d6"`. -/
theorem parse_rejects_dice_chars_witness :
    ('d' ∈ "1d6".toList ∨ 'k' ∈ "1d6".toList) ∧
    ∃ msg, parse "1d6" = Except.error msg :=
  ⟨Or.inl (by decide), parse_rejects_dice_chars "1d6" (Or.inl (by decide))⟩

mutual

/-- Roll-free well-formedness of a parsed expression: every `Op` node has
a nonempty operand list and no `Roll` occurs (the arithmetic-only parser
can produce neither). -/
def Exp.wf : Exp → Bool
  | .const _ => true
  | .roll _ => false
  | .op _ args => !args.isEmpty && wfList args

/-- Rust `Exp.wf` on each element of an operand list. -/
def wfList : List Exp → Bool
  | [] => true
  | e :: es => e.wf && wfList es

end

mutual

/-- Roll-free well-formedness of a value: every `Op` node has a nonempty
operand list and no `Rolled` occurs. -/
def Value.vwf : Value → Bool
  | .const _ => true
  | .rolled _ => false
  | .op _ vals => !vals.isEmpty && vwfList vals

/-- Rust `Value.vwf` on each element of an operand list. -/
def vwfList : List Value → Bool
  | [] => true
  | v :: vs => v.vwf && vwfList vs

end

mutual

theorem eval_wf (e : Exp) (h : e.wf = true) (rng : List Nat) :
    ∃ v, e.evaluate rng = some (v, rng) ∧ v.vwf = true := by
  match e with
  | .const n => exact ⟨.const n, rfl, rfl⟩
  | .roll r => exact absurd h (by simp [Exp.wf])
  | .op o args =>
      rw [Exp.wf, Bool.and_eq_true] at h
      obtain ⟨hne, hargs⟩ := h
      obtain ⟨vs, hvs, hwfs, hlen⟩ := evalList_wf args hargs rng
      refine ⟨.op o vs, ?_, ?_⟩
      · simp only [Exp.evaluate, hvs]
      · rw [Value.vwf, Bool.and_eq_true]
        refine ⟨?_, hwfs⟩
        cases vs with
        | nil =>
            cases args with
            | nil => cases hne
            | cons a as => cases hlen
        | cons v vs' => rfl

theorem evalList_wf (es : List Exp) (h : wfList es = true) (rng : List Nat) :
    ∃ vs, evalList es rng = some (vs, rng) ∧ vwfList vs = true ∧ vs.length = es.length := by
  match es with
  | [] => exact ⟨[], rfl, rfl, rfl⟩
  | e :: es' =>
      rw [wfList, Bool.and_eq_true] at h
      obtain ⟨he, hes⟩ := h
      obtain ⟨v, hv, hvwf⟩ := eval_wf e he rng
      obtain ⟨vs, hvs, hwfs, hlen⟩ := evalList_wf es' hes rng
      refine ⟨v :: vs, ?_, ?_, by rw [List.length_cons, List.length_cons, hlen]⟩
      · simp only [evalList, hv, hvs]
      · rw [vwfList, Bool.and_eq_true]
        exact ⟨hvwf, hwfs⟩

end

mutual

theorem value_wf (v : Value) (h : v.vwf = true) : ∃ n, v.value = some n := by
  match v with
  | .const n => exact ⟨n, rfl⟩
  | .rolled r => exact absurd h (by simp [Value.vwf])
  | .op o vals =>
      rw [Value.vwf, Bool.and_eq_true] at h
      obtain ⟨hne, hvals⟩ := h
      obtain ⟨ns, hns, hlen⟩ := valueList_wf vals hvals
      match o with
      | .add => exact ⟨ns.sum, by simp only [Value.value, hns]⟩
      | .mul => exact ⟨ns.prod, by simp only [Value.value, hns]⟩
      | .sub =>
          cases hns2 : ns with
          | nil =>
              subst hns2
              cases vals with
              | nil => cases hne
              | cons v vs => cases hlen
          | cons n ns' =>
              refine ⟨ns'.foldl (fun acc v => acc - v) n, ?_⟩
              simp only [Value.value, hns, hns2]

theorem valueList_wf (vs : List Value) (h : vwfList vs = true) :
    ∃ ns, valueList vs = some ns ∧ ns.length = vs.length := by
  match vs with
  | [] => exact ⟨[], rfl, rfl⟩
  | v :: vs' =>
      rw [vwfList, Bool.and_eq_true] at h
      obtain ⟨hv, hvs⟩ := h
      obtain ⟨n, hn⟩ := value_wf v hv
      obtain ⟨ns, hns, hlen⟩ := valueList_wf vs' hvs
      refine ⟨n :: ns, ?_, by rw [List.length_cons, List.length_cons, hlen]⟩
      simp only [valueList, hn, hns]

end

/-- Well-formedness of a builder stack item: expression tokens hold
well-formed expressions, every other token is unconstrained. -/
def Token.twf : Token → Bool
  | .expression e => e.wf
  | _ => true

theorem wfList_append (xs ys : List Exp) :
    wfList (xs ++ ys) = (wfList xs && wfList ys) := by
  induction xs with
  | nil => simp [wfList]
  | cons x xs ih => simp [wfList, ih, Bool.and_assoc]

/-- Every reduction rule of `ExpBuilder::reduced` produces a well-formed
expression from a stack suffix of well-formed tokens. -/
theorem reducedSuffix_wf (la : Option Token) (s : List Token) (e : Exp)
    (h : reducedSuffix la s = some e) (hs : ∀ t ∈ s, t.twf = true) :
    e.wf = true := by
  unfold reducedSuffix at h
  split at h
  · -- [number n]
    simp only [Option.some.injEq] at h
    subst h
    rfl
  · -- [openParen, expression e', closeParen]
    simp only [Option.some.injEq] at h
    subst h
    have h2 := hs _ (List.mem_cons_of_mem _ (List.mem_cons_self _ _))
    simpa [Token.twf] using h2
  · -- [expression (op add augends), plus, expression addend]
    simp only [Option.some.injEq] at h
    subst h
    have h1 := hs _ (List.mem_cons_self _ _)
    have h3 := hs _ (List.mem_cons_of_mem _ (List.mem_cons_of_mem _ (List.mem_cons_self _ _)))
    simp only [Token.twf, Exp.wf, Bool.and_eq_true] at h1 h3
    simp [Exp.wf, wfList_append, wfList, h1.2, h3]
  · -- [expression augend, plus, expression (op add addends)]
    simp only [Option.some.injEq] at h
    subst h
    have h1 := hs _ (List.mem_cons_self _ _)
    have h3 := hs _ (List.mem_cons_of_mem _ (List.mem_cons_of_mem _ (List.mem_cons_self _ _)))
    simp only [Token.twf, Exp.wf, Bool.and_eq_true] at h1 h3
    simp [Exp.wf, wfList, h1, h3.2]
  · -- [expression a, plus, expression b], gated on the lookahead
    split at h
    · simp at h
    · simp only [Option.some.injEq] at h
      subst h
      have h1 := hs _ (List.mem_cons_self _ _)
      have h3 := hs _ (List.mem_cons_of_mem _ (List.mem_cons_of_mem _ (List.mem_cons_self _ _)))
      simp only [Token.twf] at h1 h3
      simp [Exp.wf, wfList, h1, h3]
  · -- [expression (op sub subtrahends), minus, expression minuend]
    simp only [Option.some.injEq] at h
    subst h
    have h1 := hs _ (List.mem_cons_self _ _)
    have h3 := hs _ (List.mem_cons_of_mem _ (List.mem_cons_of_mem _ (List.mem_cons_self _ _)))
    simp only [Token.twf, Exp.wf, Bool.and_eq_true] at h1 h3
    simp [Exp.wf, wfList_append, wfList, h1.2, h3]
  · -- [expression subtrahend, minus, expression (op add minuend)]
    simp only [Option.some.injEq] at h
    subst h
    have h1 := hs _ (List.mem_cons_self _ _)
    have h3 := hs _ (List.mem_cons_of_mem _ (List.mem_cons_of_mem _ (List.mem_cons_self _ _)))
    simp only [Token.twf, Exp.wf, Bool.and_eq_true] at h1 h3
    simp [Exp.wf, wfList, h1, h3.2]
  · -- [expression a, minus, expression b], gated on the lookahead
    split at h
    · simp at h
    · simp only [Option.some.injEq] at h
      subst h
      have h1 := hs _ (List.mem_cons_self _ _)
      have h3 := hs _ (List.mem_cons_of_mem _ (List.mem_cons_of_mem _ (List.mem_cons_self _ _)))
      simp only [Token.twf] at h1 h3
      simp [Exp.wf, wfList, h1, h3]
  · -- [expression a, times, expression b]
    simp only [Option.some.injEq] at h
    subst h
    have h1 := hs _ (List.mem_cons_self _ _)
    have h3 := hs _ (List.mem_cons_of_mem _ (List.mem_cons_of_mem _ (List.mem_cons_self _ _)))
    simp only [Token.twf] at h1 h3
    simp [Exp.wf, wfList, h1, h3]
  · -- fallthrough
    simp at h

theorem reduceFind_twf (la : Option Token) (tokens : List Token)
    (hs : ∀ t ∈ tokens, t.twf = true) :
    ∀ (i : Nat) (tokens' : List Token), reduceFind la tokens i = some tokens' →
      ∀ t ∈ tokens', t.twf = true := by
  intro i
  induction i with
  | zero => intro tokens' hr; cases hr
  | succ i ih =>
      intro tokens' hr
      simp only [reduceFind] at hr
      split at hr
      · rename_i e heq
        simp only [Option.some.injEq] at hr
        subst hr
        intro t ht
        rcases List.mem_append.mp ht with hmem | hmem
        · exact hs t (List.take_subset _ _ hmem)
        · rw [List.mem_singleton.mp hmem]
          show Exp.wf e = true
          exact reducedSuffix_wf la (tokens.drop i) e heq
            (fun t ht' => hs t (List.drop_subset _ _ ht'))
      · exact ih tokens' hr

theorem reduceLoop_twf (la : Option Token) :
    ∀ (fuel : Nat) (tokens : List Token), (∀ t ∈ tokens, t.twf = true) →
      ∀ t ∈ reduceLoop la fuel tokens, t.twf = true := by
  intro fuel
  induction fuel with
  | zero => intro tokens hs; exact hs
  | succ fuel ih =>
      intro tokens hs
      rw [reduceLoop]
      split
      · rename_i tokens' hr
        exact ih tokens' (reduceFind_twf la tokens hs tokens.length tokens' hr)
      · exact hs

/-- The builder invariant: every stack token and the held lookahead are
well-formed. -/
def BuilderWF (b : ExpBuilder) : Prop :=
  (∀ t ∈ b.tokens, t.twf = true) ∧ (∀ t, b.lookahead = some t → t.twf = true)

theorem push_wf (b : ExpBuilder) (t : Token) (hb : BuilderWF b) (ht : t.twf = true) :
    BuilderWF (b.push t) := by
  obtain ⟨la, ts⟩ := b
  obtain ⟨hts, hla⟩ := hb
  cases la with
  | none =>
      refine ⟨hts, ?_⟩
      intro t' ht'
      cases ht'
      exact ht
  | some l =>
      constructor
      · intro t' ht'
        rcases List.mem_append.mp ht' with hmem | hmem
        · exact hts t' hmem
        · rw [List.mem_singleton.mp hmem]
          exact hla l rfl
      · intro t' ht'
        cases ht'
        exact ht

theorem step_wf (b : ExpBuilder) (t : Token) (hb : BuilderWF b) (ht : t.twf = true) :
    BuilderWF (b.step t) := by
  have hp := push_wf b t hb ht
  exact ⟨reduceLoop_twf (b.push t).lookahead _ (b.push t).tokens hp.1, hp.2⟩

theorem foldl_step_wf :
    ∀ (toks : List Token) (b : ExpBuilder), BuilderWF b →
      (∀ t ∈ toks, t.twf = true) → BuilderWF (toks.foldl ExpBuilder.step b) := by
  intro toks
  induction toks with
  | nil => intro b hb _; exact hb
  | cons t ts ih =>
      intro b hb hts
      rw [List.foldl_cons]
      exact ih (b.step t) (step_wf b t hb (hts t (List.mem_cons_self _ _)))
        (fun t' ht' => hts t' (List.mem_cons_of_mem _ ht'))

theorem next_twf :
    ∀ (cs : List Char) (t : Token) (rest : List Char),
      Token.next cs = .ok (t, rest) → t.twf = true := by
  intro cs
  induction cs with
  | nil => intro t rest hnext; cases hnext
  | cons c cs' ih =>
      intro t rest hnext
      simp only [Token.next] at hnext
      by_cases hcw : c.isWhitespace
      · rw [if_pos hcw] at hnext
        exact ih t rest hnext
      · rw [if_neg hcw] at hnext
        by_cases hc1 : c = '('
        · rw [if_pos hc1] at hnext; cases hnext; rfl
        · rw [if_neg hc1] at hnext
          by_cases hc2 : c = ')'
          · rw [if_pos hc2] at hnext; cases hnext; rfl
          · rw [if_neg hc2] at hnext
            by_cases hc3 : c.isDigit
            · rw [if_pos hc3] at hnext; cases hnext; rfl
            · rw [if_neg hc3] at hnext
              by_cases hc4 : c = '-'
              · rw [if_pos hc4] at hnext
                by_cases hpd : (cs'.head?.map Char.isDigit).getD false
                · rw [if_pos hpd] at hnext; cases hnext; rfl
                · rw [if_neg hpd] at hnext; cases hnext; rfl
              · rw [if_neg hc4] at hnext
                by_cases hc5 : c = '+'
                · rw [if_pos hc5] at hnext; cases hnext; rfl
                · rw [if_neg hc5] at hnext
                  by_cases hc6 : c = '*'
                  · rw [if_pos hc6] at hnext; cases hnext; rfl
                  · rw [if_neg hc6] at hnext; cases hnext

theorem tokenizeGo_twf :
    ∀ (fuel : Nat) (cs : List Char) (toks : List Token),
      tokenizeGo fuel cs = .ok toks → ∀ t ∈ toks, t.twf = true := by
  intro fuel
  induction fuel with
  | zero =>
      intro cs toks h
      cases cs with
      | nil =>
          simp only [tokenizeGo, Except.ok.injEq] at h
          subst h
          intro t ht
          rw [List.mem_singleton.mp ht]
          rfl
      | cons c cs' => cases h
  | succ fuel ih =>
      intro cs toks h
      cases cs with
      | nil =>
          simp only [tokenizeGo, Except.ok.injEq] at h
          subst h
          intro t ht
          rw [List.mem_singleton.mp ht]
          rfl
      | cons c cs' =>
          rw [tokenizeGo] at h
          cases hnext : Token.next (c :: cs') with
          | error msg => simp only [hnext] at h; exact Except.noConfusion h
          | ok pair =>
              obtain ⟨t0, rest⟩ := pair
              simp only [hnext] at h
              cases hrec : tokenizeGo fuel rest with
              | error msg => simp only [hrec] at h; exact Except.noConfusion h
              | ok ts =>
                  simp only [hrec, Except.ok.injEq] at h
                  subst h
                  intro t ht
                  cases ht with
                  | head => exact next_twf (c :: cs') t0 rest hnext
                  | tail _ hmem => exact ih rest ts hrec t hmem

theorem parse_wf (s : String) (e : Exp) (h : parse s = .ok e) : e.wf = true := by
  unfold parse at h
  cases htok : tokenize s.toList with
  | error msg => simp only [htok] at h; exact Except.noConfusion h
  | ok toks =>
      simp only [htok] at h
      have hbw : BuilderWF (toks.foldl ExpBuilder.step ⟨none, []⟩) :=
        foldl_step_wf toks ⟨none, []⟩
          ⟨fun t ht => absurd ht (List.not_mem_nil t), fun t ht => Option.noConfusion ht⟩
          (tokenizeGo_twf s.toList.length s.toList toks htok)
      generalize hfold : List.foldl ExpBuilder.step ⟨none, []⟩ toks = b at h hbw
      obtain ⟨la, ts⟩ := b
      cases ts with
      | nil => exact Except.noConfusion h
      | cons t ts' =>
          cases ts' with
          | nil =>
              cases t with
              | expression e2 =>
                  change Except.ok e2 = Except.ok e at h
                  injection h with he
                  subst he
                  have h2 := hbw.1 (Token.expression e2) (List.mem_singleton_self _)
                  simpa [Token.twf] using h2
              | number n => exact Except.noConfusion h
              | plus => exact Except.noConfusion h
              | minus => exact Except.noConfusion h
              | times => exact Except.noConfusion h
              | openParen => exact Except.noConfusion h
              | closeParen => exact Except.noConfusion h
              | endOfStream => exact Except.noConfusion h
          | cons t2 ts2 => cases t <;> exact Except.noConfusion h

/-- C5: evaluation is total on parser output: for every expression
returned by a successful `parse` and every randomness source, `evaluate`
returns a `Value` (without failing and, since the arithmetic parser
builds no rolls, without consuming randomness), and collapsing that value
with `Value::value` is also defined — the only fatal path, an `Op` whose
operand sequence is empty, is unreachable because the builder never
constructs such a node. -/
theorem evaluate_total_on_parsed (s : String) (e : Exp)
    (hparse : parse s = Except.ok e) (rng : List Nat) :
    ∃ v, e.evaluate rng = some (v, rng) ∧ ∃ n, v.value = some n := by
  have hwf := parse_wf s e hparse
  obtain ⟨v, hv, hvwf⟩ := eval_wf e hwf rng
  exact ⟨v, hv, value_wf v hvwf⟩

/-- Witness for `evaluate_total_on_parsed` at `"1 + 2"` with randomness
source `[7]`. -/
theorem evaluate_total_on_parsed_witness :
    ∃ v, (Exp.op Operation.add [Exp.const 1, Exp.const 2]).evaluate [7] = some (v, [7]) ∧
      ∃ n, v.value = some n :=
  evaluate_total_on_parsed "1 + 2" (Exp.op Operation.add [Exp.const 1, Exp.const 2]) rfl [7]

/-- The number of `Number` tokens on the stack, the second component of
the termination measure of the reduce-to-fixpoint loop. -/
def numberCount : List Token → Nat
  | [] => 0
  | .number _ :: ts => numberCount ts + 1
  | _ :: ts => numberCount ts

theorem numberCount_append (xs ys : List Token) :
    numberCount (xs ++ ys) = numberCount xs + numberCount ys := by
  induction xs with
  | nil => simp [numberCount]
  | cons x xs ih =>
      cases x <;> (simp [numberCount, ih]; try omega)

/-- Every suffix a reduction rule matches is either a lone number token
or exactly three tokens long. -/
theorem reducedSuffix_shape (la : Option Token) (s : List Token) (e : Exp)
    (h : reducedSuffix la s = some e) :
    (∃ n, s = [Token.number n]) ∨ s.length = 3 := by
  unfold reducedSuffix at h
  split at h
  · rename_i n
    exact Or.inl ⟨n, rfl⟩
  · exact Or.inr rfl
  · exact Or.inr rfl
  · exact Or.inr rfl
  · exact Or.inr rfl
  · exact Or.inr rfl
  · exact Or.inr rfl
  · exact Or.inr rfl
  · exact Or.inr rfl
  · exact absurd h (by simp)

/-- One firing of a reduction rule strictly decreases the measure
`2 · length + numberCount` of the stack. -/
theorem reduceFind_measure (la : Option Token) (tokens : List Token) :
    ∀ (i : Nat) (tokens' : List Token), reduceFind la tokens i = some tokens' →
      2 * tokens'.length + numberCount tokens' <
        2 * tokens.length + numberCount tokens := by
  intro i
  induction i with
  | zero => intro tokens' hr; cases hr
  | succ i ih =>
      intro tokens' hr
      simp only [reduceFind] at hr
      split at hr
      · rename_i e heq
        simp only [Option.some.injEq] at hr
        subst hr
        have hsplit : tokens.take i ++ tokens.drop i = tokens := List.take_append_drop i tokens
        have hshape := reducedSuffix_shape la (tokens.drop i) e heq
        have hdropm : 2 < 2 * (tokens.drop i).length + numberCount (tokens.drop i) := by
          rcases hshape with ⟨n, hn⟩ | hlen
          · rw [hn]
            simp [numberCount]
          · rw [hlen]
            omega
        calc 2 * (tokens.take i ++ [Token.expression e]).length +
              numberCount (tokens.take i ++ [Token.expression e])
            = 2 * (tokens.take i).length + numberCount (tokens.take i) + 2 := by
              rw [List.length_append, numberCount_append]
              simp [numberCount]
              omega
          _ < 2 * (tokens.take i).length + numberCount (tokens.take i) +
              (2 * (tokens.drop i).length + numberCount (tokens.drop i)) := by omega
          _ = 2 * tokens.length + numberCount tokens := by
              conv_rhs => rw [← hsplit]
              rw [List.length_append, numberCount_append]
              omega
      · exact ih tokens' hr

/-- With fuel exceeding the measure, the reduce loop reaches a true
fixpoint: no further reduction fires on its result, exactly as the
unbounded `while exp_builder.reduce() {}` loop of `parse` guarantees.
The fuel `3 · length + 1` used by `ExpBuilder.step` satisfies the bound,
so the fuelled model agrees with the Rust loop. -/
theorem reduceLoop_fixpoint (la : Option Token) :
    ∀ (fuel : Nat) (tokens : List Token),
      2 * tokens.length + numberCount tokens < fuel →
      reduceOnce la (reduceLoop la fuel tokens) = none := by
  intro fuel
  induction fuel with
  | zero => intro tokens h; cases h
  | succ fuel ih =>
      intro tokens h
      rw [reduceLoop]
      cases hr : reduceOnce la tokens with
      | none => exact hr
      | some tokens' =>
          have hm := reduceFind_measure la tokens tokens.length tokens' hr
          exact ih tokens' (by omega)

theorem numberCount_le_length (ts : List Token) : numberCount ts ≤ ts.length := by
  induction ts with
  | nil => exact Nat.le_refl _
  | cons t ts ih => cases t <;> simp [numberCount] <;> omega

/-- The fuel `ExpBuilder.step` passes to the reduce loop dominates the
measure, so every step of the builder runs its reduction to fixpoint. -/
theorem step_reaches_fixpoint (b : ExpBuilder) (t : Token) :
    reduceOnce (b.push t).lookahead (b.step t).tokens = none := by
  have hle := numberCount_le_length (b.push t).tokens
  exact reduceLoop_fixpoint (b.push t).lookahead (3 * (b.push t).tokens.length + 1)
    (b.push t).tokens (by omega)
